import Mathlib

/-!
Verification of `importlinter/application/contract_utils.py`: the inline-ignore
scanner (`get_inline_ignored_lines`), the ignore-rule resolver
(`remove_ignored_imports` with `_handle_unresolved_import_expressions`), and the
occurrence filter (`filter_ignored_lines`).

The graph collaborator (grimp's `ImportGraph`) and the domain value types
(`Module`, `DirectImport`, `ImportExpression`) are external to the source file;
they are modelled from the spec, as noted on each definition. Machine-level
details: Python strings are modelled as Lean `String` (sequences of code
points), Python sets as insertion-ordered duplicate-free lists (CPython's
actual set iteration order is hash-based and unspecified; the model fixes the
deterministic first-encounter order and, crucially, faithfully reflects which
code paths do or do not apply an explicit `sorted`), and Python dict records
as structures, with a missing "line_contents" key modelled as `Option.none`.
-/

/-- Lexicographic comparison of character lists by code point, the order Python
uses when comparing strings with `<` / sorting them with `sorted`. -/
def charListLe : List Char → List Char → Bool
  | [], _ => true
  | _ :: _, [] => false
  | a :: as, b :: bs => if a < b then true else if a = b then charListLe as bs else false

/-- Lexicographic `≤` on strings, Python's string comparison. -/
def strLeB (s t : String) : Bool :=
  charListLe s.data t.data

/-- Boolean test that list `k` occurs as a contiguous segment starting at the
head of list `s`. -/
def startsWithL : List Char → List Char → Bool
  | [], _ => true
  | _ :: _, [] => false
  | a :: as, b :: bs => a = b && startsWithL as bs

/-- Boolean test that list `k` occurs as a contiguous segment anywhere in `s`. -/
def hasSubL (k : List Char) : List Char → Bool
  | [] => startsWithL k []
  | c :: t => startsWithL k (c :: t) || hasSubL k t

/-- Plain substring containment: `strContains s k` models Python's `k in s`
for strings (no escaping, no anchoring). -/
def strContains (s k : String) : Bool :=
  hasSubL k.data s.data

/-- The `AlertLevel` enum of `contract_utils.py`: how to handle ignore
expressions that match no imports. -/
inductive AlertLevel
  | NONE
  | WARN
  | ERROR
deriving DecidableEq, Repr

/-- Modelled from the spec: one import-occurrence detail record as returned by
the graph's `get_import_details` (a Python dict with at least importer name,
imported name, line number and line text); `line_contents = none` models a
record missing its "line_contents" key. -/
structure OccurrenceDetail where
  importer : String
  imported : String
  line_number : Nat
  line_contents : Option String
deriving DecidableEq, Repr

/-- Modelled from the spec: the external grimp `ImportGraph`, reduced to the
state the core observes and mutates — its modules, its directed edge set
(ordered (importer, imported) pairs of module names, `DirectImport`s by value),
and the per-edge occurrence-detail records. -/
structure ImportGraph where
  modules : List String
  edges : List (String × String)
  details : List OccurrenceDetail
deriving DecidableEq, Repr

/-- Modelled from the spec: the graph query listing the modules directly
imported by `m` (the imported endpoint of each edge whose importer is `m`). -/
def find_modules_directly_imported_by (g : ImportGraph) (m : String) : List String :=
  (g.edges.filter (fun e => decide (e.1 = m))).map Prod.snd

/-- Modelled from the spec: the graph query fetching all occurrence-detail
records for the edge (importer a, imported b). -/
def get_import_details (g : ImportGraph) (a b : String) : List OccurrenceDetail :=
  g.details.filter (fun d => decide (d.importer = a ∧ d.imported = b))

/-- Modelled from the spec: the graph's pattern-matching oracle. An
`ImportExpression` is an opaque pattern rendered to its string form (here the
string itself); the oracle `m` decides whether a pattern matches one concrete
edge, and `find_matching_direct_imports` returns every concrete direct import
of the graph the pattern matches, as (importer, imported) pairs. -/
def find_matching_direct_imports (m : String → String × String → Bool)
    (g : ImportGraph) (expr : String) : List (String × String) :=
  g.edges.filter (fun e => m expr e)

/-- Modelled from the spec: the graph mutation removing a direct import edge by
its (importer, imported) names; removing an edge removes all its occurrences. -/
def remove_import (g : ImportGraph) (a b : String) : ImportGraph :=
  { g with
    edges := g.edges.filter (fun e => decide (¬ (e.1 = a ∧ e.2 = b))),
    details := g.details.filter (fun d => decide (¬ (d.importer = a ∧ d.imported = b))) }

/-- Source `_has_inline_ignore`: the marker keyword occurs in the line text as
a plain substring. -/
def has_inline_ignore (line_contents : String) (keyword : String) : Bool :=
  strContains line_contents keyword

/-- Source `get_inline_ignored_lines`: for every module, for every module it
directly imports, fetch the occurrence details of that edge and keep the
(importer, imported, line_number) triple of every detail whose line text (empty
string when the record has none) contains the inline-ignore keyword. The
Python set of triples is modelled as the traversal's list, read up to
membership. -/
def get_inline_ignored_lines (g : ImportGraph) (inline_ignore_keyword : String) :
    List (String × String × Nat) :=
  g.modules.flatMap (fun m =>
    (find_modules_directly_imported_by g m).flatMap (fun im =>
      (get_import_details g m im).filterMap (fun d =>
        if has_inline_ignore (d.line_contents.getD "") inline_ignore_keyword then
          some (d.importer, d.imported, d.line_number)
        else none)))

/-- Python-set insertion modelled on an insertion-ordered duplicate-free list:
adding an element already present leaves the set unchanged. -/
def addToSet {α : Type} [DecidableEq α] (l : List α) (x : α) : List α :=
  if x ∈ l then l else l ++ [x]

/-- Python's `set.update`: add every element of `xs` to the set `l`. -/
def addAllToSet {α : Type} [DecidableEq α] (l : List α) (xs : List α) : List α :=
  xs.foldl addToSet l

/-- One iteration of the resolver's accumulation loop: match the expression
against the graph; on a non-empty match, union the matched (importer, imported)
pairs into the removal set, otherwise add the expression to the unresolved
set. -/
def resolveStep (m : String → String × String → Bool) (g : ImportGraph)
    (acc : List (String × String) × List String) (expr : String) :
    List (String × String) × List String :=
  let matched := find_matching_direct_imports m g expr
  if matched ≠ [] then (addAllToSet acc.1 matched, acc.2)
  else (acc.1, addToSet acc.2 expr)

/-- The accumulation loop of `remove_ignored_imports`: starting from empty
`imports_to_remove` and `unresolved_expressions` sets, fold `resolveStep` over
the expression list in order. -/
def resolveSets (m : String → String × String → Bool) (g : ImportGraph)
    (exprs : List String) : List (String × String) × List String :=
  exprs.foldl (resolveStep m g) ([], [])

/-- Insertion of a string into a lexicographically sorted list of strings. -/
def insertStr (x : String) : List String → List String
  | [] => [x]
  | y :: ys => if strLeB x y then x :: y :: ys else y :: insertStr x ys

/-- Python's `sorted` on strings (ascending lexicographic), as insertion
sort. -/
def sortStrings : List String → List String
  | [] => []
  | x :: xs => insertStr x (sortStrings xs)

/-- Source `_build_missing_import_message`. -/
def build_missing_import_message (expression : String) : String :=
  "No matches for ignored import " ++ expression ++ "."

/-- Source `_handle_unresolved_import_expressions`: NONE is silent; an empty
unresolved set yields no warnings; WARN yields one message per unresolved
expression in the set's iteration order (the code applies no sort here, so the
model keeps the set's order); ERROR raises `MissingImport` (modelled as the
`Except.error` case, carrying its message) for `sorted(expressions, key=str)[0]`,
the lexicographically smallest expression. -/
def handle_unresolved_import_expressions (expressions : List String)
    (alert_level : AlertLevel) : Except String (List String) :=
  if alert_level = AlertLevel.NONE then Except.ok []
  else if expressions.isEmpty then Except.ok []
  else if alert_level = AlertLevel.WARN then
    Except.ok (expressions.map build_missing_import_message)
  else
    Except.error (build_missing_import_message ((sortStrings expressions).headD ""))

/-- The removal loop of `remove_ignored_imports`: call the graph's
`remove_import` once for each pair in `imports_to_remove`, in order. -/
def applyRemovals : ImportGraph → List (String × String) → ImportGraph
  | g, [] => g
  | g, r :: rest => applyRemovals (remove_import g r.1 r.2) rest

/-- Source `remove_ignored_imports`: accumulate the removal set and the
unresolved set over `ignore_imports or []`, handle the unresolved expressions
(which may raise, modelled as `Except.error`), then perform the removals and
return the warnings together with the mutated graph. -/
def remove_ignored_imports (m : String → String × String → Bool) (g : ImportGraph)
    (ignore_imports : Option (List String)) (unmatched_alerting : AlertLevel) :
    Except String (List String × ImportGraph) :=
  let sets := resolveSets m g (ignore_imports.getD [])
  match handle_unresolved_import_expressions sets.2 unmatched_alerting with
  | Except.error msg => Except.error msg
  | Except.ok warnings => Except.ok (warnings, applyRemovals g sets.1)

/-- A call to `remove_ignored_imports` observed together with the graph state
it leaves behind: when the call raises, the removal loop was never reached, so
the caller still holds the graph unchanged. -/
def runResolve (m : String → String × String → Bool) (g : ImportGraph)
    (ignore_imports : Option (List String)) (unmatched_alerting : AlertLevel) :
    Except String (List String) × ImportGraph :=
  match remove_ignored_imports m g ignore_imports unmatched_alerting with
  | Except.error msg => (Except.error msg, g)
  | Except.ok (warnings, g2) => (Except.ok warnings, g2)

/-- Source `filter_ignored_lines`: keep exactly the detail records whose
(importer, imported, line_number) triple is not in the inline-ignored set. -/
def filter_ignored_lines (import_details : List OccurrenceDetail)
    (inline_ignored_lines : List (String × String × Nat)) : List OccurrenceDetail :=
  import_details.filter
    (fun d => decide ((d.importer, d.imported, d.line_number) ∉ inline_ignored_lines))

/-- Number of occurrences of `a` in a list. -/
def countOcc {α : Type} [DecidableEq α] (a : α) : List α → Nat
  | [] => 0
  | b :: bs => (if b = a then 1 else 0) + countOcc a bs

/-- Consistency of a graph snapshot: every occurrence-detail record belongs to
a module of the graph and to an edge the graph records — the invariant grimp
maintains between its module set, edge set and per-edge details. -/
def WellFormed (g : ImportGraph) : Prop :=
  ∀ d ∈ g.details, d.importer ∈ g.modules ∧ (d.importer, d.imported) ∈ g.edges

instance wellFormedDecidable (g : ImportGraph) : Decidable (WellFormed g) :=
  List.decidableBAll _ g.details

theorem charListLe_refl (l : List Char) : charListLe l l = true := by
  induction l with
  | nil => rfl
  | cons a as ih => simp [charListLe, ih]

theorem charListLe_total (a b : List Char) : charListLe a b = true ∨ charListLe b a = true := by
  induction a generalizing b with
  | nil => exact Or.inl rfl
  | cons x xs ih =>
      cases b with
      | nil => exact Or.inr rfl
      | cons y ys =>
          rcases lt_trichotomy x y with h | h | h
          · exact Or.inl (by simp [charListLe, h])
          · subst h
            rcases ih ys with h2 | h2
            · exact Or.inl (by simp [charListLe, h2])
            · exact Or.inr (by simp [charListLe, h2])
          · exact Or.inr (by simp [charListLe, h])

theorem charListLe_trans (a b c : List Char) (hab : charListLe a b = true)
    (hbc : charListLe b c = true) : charListLe a c = true := by
  induction a generalizing b c with
  | nil => rfl
  | cons x xs ih =>
      cases b with
      | nil => simp [charListLe] at hab
      | cons y ys =>
          cases c with
          | nil => simp [charListLe] at hbc
          | cons z zs =>
              by_cases hxy : x < y
              · by_cases hyz : y < z
                · simp [charListLe, lt_trans hxy hyz]
                · by_cases hyz2 : y = z
                  · subst hyz2; simp [charListLe, hxy]
                  · simp [charListLe, hyz, hyz2] at hbc
              · by_cases hxy2 : x = y
                · subst hxy2
                  simp only [charListLe, lt_irrefl, if_false, if_pos rfl] at hab
                  by_cases hxz : x < z
                  · simp [charListLe, hxz]
                  · by_cases hxz2 : x = z
                    · subst hxz2
                      simp only [charListLe, lt_irrefl, if_false, if_pos rfl] at hbc ⊢
                      exact ih ys zs hab hbc
                    · simp [charListLe, hxz, hxz2] at hbc
                · simp [charListLe, hxy, hxy2] at hab

theorem strLeB_refl (s : String) : strLeB s s = true :=
  charListLe_refl s.data

theorem strLeB_total (s t : String) : strLeB s t = true ∨ strLeB t s = true :=
  charListLe_total s.data t.data

theorem strLeB_trans {s t u : String} (h1 : strLeB s t = true) (h2 : strLeB t u = true) :
    strLeB s u = true :=
  charListLe_trans s.data t.data u.data h1 h2

theorem hasSubL_nil (s : List Char) : hasSubL [] s = true := by
  cases s with
  | nil => rfl
  | cons c t => simp [hasSubL, startsWithL]

theorem strContains_empty_keyword (s : String) : strContains s "" = true :=
  hasSubL_nil s.data

theorem mem_insertStr {y x : String} {l : List String} :
    y ∈ insertStr x l ↔ y = x ∨ y ∈ l := by
  induction l with
  | nil => simp [insertStr]
  | cons z zs ih =>
      by_cases h : strLeB x z = true
      · simp [insertStr, h]
      · simp only [insertStr, if_neg h, List.mem_cons, ih]
        tauto

theorem mem_sortStrings {y : String} {l : List String} :
    y ∈ sortStrings l ↔ y ∈ l := by
  induction l with
  | nil => simp [sortStrings]
  | cons x xs ih => simp [sortStrings, mem_insertStr, ih]

theorem sortStrings_head_le (l : List String) :
    ∀ x ∈ l, strLeB ((sortStrings l).headD "") x = true := by
  induction l with
  | nil => intro x hx; cases hx
  | cons y ys ih =>
      intro x hx
      cases hsy : sortStrings ys with
      | nil =>
          have hys : ys = [] := by
            apply List.eq_nil_iff_forall_not_mem.mpr
            intro a ha
            have hmem : a ∈ sortStrings ys := mem_sortStrings.mpr ha
            rw [hsy] at hmem
            exact absurd hmem (List.not_mem_nil a)
          subst hys
          have hxy : x = y := by simpa using hx
          subst hxy
          exact strLeB_refl x
      | cons h t =>
          have ihh : ∀ z ∈ ys, strLeB h z = true := by
            intro z hz
            have hz2 := ih z hz
            rw [hsy] at hz2
            simpa using hz2
          simp only [sortStrings, hsy]
          by_cases hyh : strLeB y h = true
          · simp only [insertStr, if_pos hyh, List.headD_cons]
            rcases List.mem_cons.mp hx with rfl | hx'
            · exact strLeB_refl x
            · exact strLeB_trans hyh (ihh x hx')
          · have hhy : strLeB h y = true := (strLeB_total y h).resolve_left hyh
            simp only [insertStr, if_neg hyh, List.headD_cons]
            rcases List.mem_cons.mp hx with rfl | hx'
            · exact hhy
            · exact ihh x hx'

theorem sortStrings_headD_mem {l : List String} (h : l ≠ []) :
    (sortStrings l).headD "" ∈ l := by
  cases hs : sortStrings l with
  | nil =>
      exfalso
      cases l with
      | nil => exact h rfl
      | cons a as =>
          have hmem : a ∈ sortStrings (a :: as) :=
            mem_sortStrings.mpr (List.mem_cons_self a as)
          rw [hs] at hmem
          exact absurd hmem (List.not_mem_nil a)
  | cons x t =>
      have hmem : x ∈ sortStrings l := by
        rw [hs]; exact List.mem_cons_self x t
      simpa using mem_sortStrings.mp hmem

theorem mem_addToSet {α : Type} [DecidableEq α] {l : List α} {x y : α} :
    y ∈ addToSet l x ↔ y ∈ l ∨ y = x := by
  by_cases h : x ∈ l
  · simp only [addToSet, if_pos h]
    constructor
    · exact Or.inl
    · rintro (hy | rfl)
      · exact hy
      · exact h
  · simp [addToSet, h]

theorem nodup_addToSet {α : Type} [DecidableEq α] {l : List α} {x : α} (h : l.Nodup) :
    (addToSet l x).Nodup := by
  by_cases hx : x ∈ l
  · simpa [addToSet, hx] using h
  · rw [addToSet, if_neg hx]
    simp [List.nodup_append, h, hx]

theorem mem_addAllToSet {α : Type} [DecidableEq α] (xs : List α) :
    ∀ (l : List α) (y : α), y ∈ addAllToSet l xs ↔ y ∈ l ∨ y ∈ xs := by
  induction xs with
  | nil => intro l y; simp [addAllToSet]
  | cons a as ih =>
      intro l y
      have hstep : addAllToSet l (a :: as) = addAllToSet (addToSet l a) as := rfl
      rw [hstep, ih, mem_addToSet]
      simp only [List.mem_cons]
      tauto

theorem nodup_addAllToSet {α : Type} [DecidableEq α] (xs : List α) :
    ∀ l : List α, l.Nodup → (addAllToSet l xs).Nodup := by
  induction xs with
  | nil => intro l h; exact h
  | cons a as ih =>
      intro l h
      exact ih _ (nodup_addToSet h)

theorem countOcc_eq_zero {α : Type} [DecidableEq α] {a : α} {l : List α} (h : a ∉ l) :
    countOcc a l = 0 := by
  induction l with
  | nil => rfl
  | cons b bs ih =>
      have h1 : ¬ b = a := by
        intro e; subst e; exact h (List.mem_cons_self b bs)
      have h2 : a ∉ bs := fun ha => h (List.mem_cons_of_mem b ha)
      simp [countOcc, h1, ih h2]

theorem countOcc_eq_one {α : Type} [DecidableEq α] {a : α} {l : List α}
    (hnd : l.Nodup) (h : a ∈ l) : countOcc a l = 1 := by
  induction l with
  | nil => cases h
  | cons b bs ih =>
      rcases List.mem_cons.mp h with rfl | hmem
      · have hnb : a ∉ bs := (List.nodup_cons.mp hnd).1
        simp [countOcc, countOcc_eq_zero hnb]
      · have hb : ¬ b = a := by
          rintro rfl; exact (List.nodup_cons.mp hnd).1 hmem
        simp [countOcc, hb, ih (List.nodup_cons.mp hnd).2 hmem]

theorem mem_find_matching {m : String → String × String → Bool} {g : ImportGraph}
    {expr : String} {e : String × String} :
    e ∈ find_matching_direct_imports m g expr ↔ e ∈ g.edges ∧ m expr e = true := by
  simp [find_matching_direct_imports, List.mem_filter]

theorem resolve_foldl_snd (m : String → String × String → Bool) (g : ImportGraph)
    (E : List String) :
    ∀ (acc : List (String × String) × List String) (x : String),
      x ∈ (E.foldl (resolveStep m g) acc).2 ↔
        x ∈ acc.2 ∨ (x ∈ E ∧ find_matching_direct_imports m g x = []) := by
  induction E with
  | nil => intro acc x; simp
  | cons a as ih =>
      intro acc x
      rw [List.foldl_cons, ih]
      by_cases hm : find_matching_direct_imports m g a = []
      · have hstep : (resolveStep m g acc a).2 = addToSet acc.2 a := by
          simp [resolveStep, hm]
        rw [hstep, mem_addToSet]
        constructor
        · rintro ((h1 | rfl) | ⟨h2, h3⟩)
          · exact Or.inl h1
          · exact Or.inr ⟨List.mem_cons_self _ _, hm⟩
          · exact Or.inr ⟨List.mem_cons_of_mem _ h2, h3⟩
        · rintro (h1 | ⟨h2, h3⟩)
          · exact Or.inl (Or.inl h1)
          · rcases List.mem_cons.mp h2 with rfl | h4
            · exact Or.inl (Or.inr rfl)
            · exact Or.inr ⟨h4, h3⟩
      · have hstep : (resolveStep m g acc a).2 = acc.2 := by
          simp [resolveStep, hm]
        rw [hstep]
        constructor
        · rintro (h1 | ⟨h2, h3⟩)
          · exact Or.inl h1
          · exact Or.inr ⟨List.mem_cons_of_mem _ h2, h3⟩
        · rintro (h1 | ⟨h2, h3⟩)
          · exact Or.inl h1
          · rcases List.mem_cons.mp h2 with rfl | h4
            · exact absurd h3 hm
            · exact Or.inr ⟨h4, h3⟩

theorem resolve_foldl_fst (m : String → String × String → Bool) (g : ImportGraph)
    (E : List String) :
    ∀ (acc : List (String × String) × List String) (e : String × String),
      e ∈ (E.foldl (resolveStep m g) acc).1 ↔
        e ∈ acc.1 ∨ ∃ x ∈ E, e ∈ find_matching_direct_imports m g x := by
  induction E with
  | nil => intro acc e; simp
  | cons a as ih =>
      intro acc e
      rw [List.foldl_cons, ih]
      by_cases hm : find_matching_direct_imports m g a = []
      · have hstep : (resolveStep m g acc a).1 = acc.1 := by
          simp [resolveStep, hm]
        rw [hstep]
        constructor
        · rintro (h1 | ⟨x, hx, he⟩)
          · exact Or.inl h1
          · exact Or.inr ⟨x, List.mem_cons_of_mem _ hx, he⟩
        · rintro (h1 | ⟨x, hx, he⟩)
          · exact Or.inl h1
          · rcases List.mem_cons.mp hx with rfl | h4
            · rw [hm] at he; cases he
            · exact Or.inr ⟨x, h4, he⟩
      · have hstep : (resolveStep m g acc a).1
            = addAllToSet acc.1 (find_matching_direct_imports m g a) := by
          simp [resolveStep, hm]
        rw [hstep, mem_addAllToSet]
        constructor
        · rintro ((h1 | h2) | ⟨x, hx, he⟩)
          · exact Or.inl h1
          · exact Or.inr ⟨a, List.mem_cons_self _ _, h2⟩
          · exact Or.inr ⟨x, List.mem_cons_of_mem _ hx, he⟩
        · rintro (h1 | ⟨x, hx, he⟩)
          · exact Or.inl (Or.inl h1)
          · rcases List.mem_cons.mp hx with rfl | h4
            · exact Or.inl (Or.inr he)
            · exact Or.inr ⟨x, h4, he⟩

theorem mem_resolveSets_fst {m : String → String × String → Bool} {g : ImportGraph}
    {E : List String} {e : String × String} :
    e ∈ (resolveSets m g E).1 ↔ ∃ x ∈ E, e ∈ find_matching_direct_imports m g x := by
  rw [resolveSets, resolve_foldl_fst]
  simp

theorem mem_resolveSets_snd {m : String → String × String → Bool} {g : ImportGraph}
    {E : List String} {x : String} :
    x ∈ (resolveSets m g E).2 ↔ x ∈ E ∧ find_matching_direct_imports m g x = [] := by
  rw [resolveSets, resolve_foldl_snd]
  simp

theorem resolve_foldl_fst_nodup (m : String → String × String → Bool) (g : ImportGraph)
    (E : List String) :
    ∀ acc : List (String × String) × List String,
      acc.1.Nodup → ((E.foldl (resolveStep m g) acc).1).Nodup := by
  induction E with
  | nil => intro acc h; exact h
  | cons a as ih =>
      intro acc h
      rw [List.foldl_cons]
      apply ih
      by_cases hm : find_matching_direct_imports m g a = []
      · simpa [resolveStep, hm] using h
      · have hstep : (resolveStep m g acc a).1
            = addAllToSet acc.1 (find_matching_direct_imports m g a) := by
          simp [resolveStep, hm]
        rw [hstep]
        exact nodup_addAllToSet _ _ h

theorem resolve_foldl_snd_nodup (m : String → String × String → Bool) (g : ImportGraph)
    (E : List String) :
    ∀ acc : List (String × String) × List String,
      acc.2.Nodup → ((E.foldl (resolveStep m g) acc).2).Nodup := by
  induction E with
  | nil => intro acc h; exact h
  | cons a as ih =>
      intro acc h
      rw [List.foldl_cons]
      apply ih
      by_cases hm : find_matching_direct_imports m g a = []
      · have hstep : (resolveStep m g acc a).2 = addToSet acc.2 a := by
          simp [resolveStep, hm]
        rw [hstep]
        exact nodup_addToSet h
      · simpa [resolveStep, hm] using h

theorem nodup_resolveSets_fst {m : String → String × String → Bool} {g : ImportGraph}
    {E : List String} : ((resolveSets m g E).1).Nodup :=
  resolve_foldl_fst_nodup m g E ([], []) List.nodup_nil

theorem nodup_resolveSets_snd {m : String → String × String → Bool} {g : ImportGraph}
    {E : List String} : ((resolveSets m g E).2).Nodup :=
  resolve_foldl_snd_nodup m g E ([], []) List.nodup_nil

theorem mem_applyRemovals_edges (rs : List (String × String)) :
    ∀ (g : ImportGraph) (e : String × String),
      e ∈ (applyRemovals g rs).edges ↔ e ∈ g.edges ∧ e ∉ rs := by
  induction rs with
  | nil => intro g e; simp [applyRemovals]
  | cons r rest ih =>
      intro g e
      rw [applyRemovals, ih]
      simp only [remove_import, List.mem_filter, decide_eq_true_eq, List.mem_cons]
      constructor
      · rintro ⟨⟨h1, h2⟩, h3⟩
        refine ⟨h1, ?_⟩
        rintro (rfl | h4)
        · exact h2 ⟨rfl, rfl⟩
        · exact h3 h4
      · rintro ⟨h1, h2⟩
        refine ⟨⟨h1, ?_⟩, fun h4 => h2 (Or.inr h4)⟩
        rintro ⟨ha, hb⟩
        exact h2 (Or.inl (Prod.ext ha hb))

theorem handle_none_level (E : List String) :
    handle_unresolved_import_expressions E AlertLevel.NONE = Except.ok [] := by
  simp [handle_unresolved_import_expressions]

theorem handle_nil (lvl : AlertLevel) :
    handle_unresolved_import_expressions [] lvl = Except.ok [] := by
  cases lvl <;> simp [handle_unresolved_import_expressions]

theorem handle_warn {E : List String} (h : E ≠ []) :
    handle_unresolved_import_expressions E AlertLevel.WARN
      = Except.ok (E.map build_missing_import_message) := by
  simp [handle_unresolved_import_expressions, h]

theorem handle_error {E : List String} (h : E ≠ []) :
    handle_unresolved_import_expressions E AlertLevel.ERROR
      = Except.error (build_missing_import_message ((sortStrings E).headD "")) := by
  simp [handle_unresolved_import_expressions, h]

theorem mem_get_inline_ignored_lines {g : ImportGraph} {kw a b : String} {n : Nat}
    (hwf : WellFormed g) :
    (a, b, n) ∈ get_inline_ignored_lines g kw ↔
      ∃ d ∈ g.details, d.importer = a ∧ d.imported = b ∧ d.line_number = n ∧
        has_inline_ignore (d.line_contents.getD "") kw = true := by
  constructor
  · intro h
    simp only [get_inline_ignored_lines, List.mem_flatMap, List.mem_filterMap] at h
    obtain ⟨m, _, im, _, d, hd, hsome⟩ := h
    by_cases hc : has_inline_ignore (d.line_contents.getD "") kw = true
    · rw [if_pos hc] at hsome
      obtain ⟨h1, h2, h3⟩ : d.importer = a ∧ d.imported = b ∧ d.line_number = n := by
        have := Option.some.inj hsome
        exact ⟨congrArg Prod.fst this, congrArg (Prod.fst ∘ Prod.snd) this,
          congrArg (Prod.snd ∘ Prod.snd) this⟩
      have hd2 : d ∈ g.details := (List.mem_filter.mp hd).1
      exact ⟨d, hd2, h1, h2, h3, hc⟩
    · rw [if_neg hc] at hsome
      cases hsome
  · rintro ⟨d, hd, rfl, rfl, rfl, hc⟩
    have hwfd := hwf d hd
    simp only [get_inline_ignored_lines, List.mem_flatMap, List.mem_filterMap]
    refine ⟨d.importer, hwfd.1, d.imported, ?_, d, ?_, ?_⟩
    · simp only [find_modules_directly_imported_by, List.mem_map]
      exact ⟨(d.importer, d.imported), List.mem_filter.mpr ⟨hwfd.2, by simp⟩, rfl⟩
    · simp only [get_import_details, List.mem_filter]
      exact ⟨hd, by simp⟩
    · rw [if_pos hc]

/-- The graph's detail query observed together with the graph state it leaves
behind: a pure read. -/
def get_import_detailsSt (g : ImportGraph) (a b : String) :
    List OccurrenceDetail × ImportGraph :=
  (get_import_details g a b, g)

/-- The graph's directly-imported-modules query observed together with the
graph state it leaves behind: a pure read. -/
def find_modules_directly_imported_bySt (g : ImportGraph) (m : String) :
    List String × ImportGraph :=
  (find_modules_directly_imported_by g m, g)

/-- The inner loop of `get_inline_ignored_lines` over the modules imported by
`m`, threading the graph state through each graph call. -/
def scanImportsSt (kw m : String) :
    List String → ImportGraph → List (String × String × Nat) × ImportGraph
  | [], g => ([], g)
  | im :: rest, g =>
      let r1 := get_import_detailsSt g m im
      let here := r1.1.filterMap (fun d =>
        if has_inline_ignore (d.line_contents.getD "") kw then
          some (d.importer, d.imported, d.line_number)
        else none)
      let r2 := scanImportsSt kw m rest r1.2
      (here ++ r2.1, r2.2)

/-- The outer loop of `get_inline_ignored_lines` over the graph's modules,
threading the graph state through each graph call. -/
def scanModulesSt (kw : String) :
    List String → ImportGraph → List (String × String × Nat) × ImportGraph
  | [], g => ([], g)
  | mo :: ms, g =>
      let r1 := find_modules_directly_imported_bySt g mo
      let r2 := scanImportsSt kw mo r1.1 r1.2
      let r3 := scanModulesSt kw ms r2.2
      (r2.1 ++ r3.1, r3.2)

/-- Source `get_inline_ignored_lines` in state-passing form: the scan, observed
together with the graph state it leaves behind. -/
def get_inline_ignored_linesSt (g : ImportGraph) (kw : String) :
    List (String × String × Nat) × ImportGraph :=
  scanModulesSt kw g.modules g

theorem scanImportsSt_snd (kw m : String) :
    ∀ (ims : List String) (g : ImportGraph), (scanImportsSt kw m ims g).2 = g := by
  intro ims
  induction ims with
  | nil => intro g; rfl
  | cons im rest ih =>
      intro g
      simp [scanImportsSt, get_import_detailsSt, ih]

theorem scanModulesSt_snd (kw : String) :
    ∀ (ms : List String) (g : ImportGraph), (scanModulesSt kw ms g).2 = g := by
  intro ms
  induction ms with
  | nil => intro g; rfl
  | cons mo rest ih =>
      intro g
      simp [scanModulesSt, find_modules_directly_imported_bySt, scanImportsSt_snd, ih]

theorem scanImportsSt_fst (kw m : String) :
    ∀ (ims : List String) (g : ImportGraph),
      (scanImportsSt kw m ims g).1 = ims.flatMap (fun im =>
        (get_import_details g m im).filterMap (fun d =>
          if has_inline_ignore (d.line_contents.getD "") kw then
            some (d.importer, d.imported, d.line_number)
          else none)) := by
  intro ims
  induction ims with
  | nil => intro g; rfl
  | cons im rest ih =>
      intro g
      simp [scanImportsSt, get_import_detailsSt, ih]

theorem scanModulesSt_fst (kw : String) :
    ∀ (ms : List String) (g : ImportGraph),
      (scanModulesSt kw ms g).1 = ms.flatMap (fun mo =>
        (find_modules_directly_imported_by g mo).flatMap (fun im =>
          (get_import_details g mo im).filterMap (fun d =>
            if has_inline_ignore (d.line_contents.getD "") kw then
              some (d.importer, d.imported, d.line_number)
            else none))) := by
  intro ms
  induction ms with
  | nil => intro g; rfl
  | cons mo rest ih =>
      intro g
      simp [scanModulesSt, find_modules_directly_imported_bySt, scanImportsSt_snd,
        scanImportsSt_fst, ih]

theorem get_inline_ignored_linesSt_eq (g : ImportGraph) (kw : String) :
    get_inline_ignored_linesSt g kw = (get_inline_ignored_lines g kw, g) := by
  rw [get_inline_ignored_linesSt]
  apply Prod.ext
  · rw [scanModulesSt_fst]; rfl
  · exact scanModulesSt_snd kw g.modules g

/-- Modelled from the spec: the simplest concrete matching oracle, used for
closed examples — a pattern matches exactly the edge whose
"importer -> imported" rendering equals the pattern string (the spec's
scenario syntax, e.g. "a -> b"). -/
def exactMatch (expr : String) (e : String × String) : Bool :=
  expr == e.1 ++ " -> " ++ e.2

/-- A concrete oracle under which every pattern matches every edge, used to
exhibit one edge matched by two different expressions. -/
def matchAllOracle (_ : String) (_ : String × String) : Bool :=
  true

/-- The spec's scenario graph: edges a→b (line 3, text carrying the marker)
and a→c (line 5, plain). -/
def exampleGraph : ImportGraph :=
  { modules := ["a", "b", "c"],
    edges := [("a", "b"), ("a", "c")],
    details := [⟨"a", "b", 3, some "import b  # lint-ignore"⟩,
                ⟨"a", "c", 5, some "import c"⟩] }

/-- A graph with no modules, edges or occurrence records. -/
def bareGraph : ImportGraph :=
  { modules := [], edges := [], details := [] }

/-- A graph whose single occurrence record is missing its line text. -/
def noTextGraph : ImportGraph :=
  { modules := ["a"], edges := [("a", "b")],
    details := [⟨"a", "b", 5, none⟩] }

/-- C3: for every well-formed graph and marker keyword `k`, the scan
`get_inline_ignored_lines` returns the triple (a, b, n) iff the graph records
an occurrence of edge a→b at line n whose line text (the empty string when the
record has no line text, so no non-empty marker can match) contains `k` as a
plain substring. -/
theorem scan_returns_marked_occurrences (g : ImportGraph) (k a b : String) (n : Nat)
    (hwf : WellFormed g) :
    (a, b, n) ∈ get_inline_ignored_lines g k ↔
      ∃ d ∈ g.details, d.importer = a ∧ d.imported = b ∧ d.line_number = n ∧
        has_inline_ignore (d.line_contents.getD "") k = true :=
  mem_get_inline_ignored_lines hwf

theorem scan_returns_marked_occurrences_witness :
    ("a", "b", 3) ∈ get_inline_ignored_lines exampleGraph "lint-ignore" :=
  (scan_returns_marked_occurrences exampleGraph "lint-ignore" "a" "b" 3
    (by decide)).mpr (by decide)

/-- C10: for every well-formed graph, scanning with the empty string as the
marker keyword returns a triple for every occurrence recorded in the graph,
including occurrences whose record has no line text, because the substring
test holds vacuously for the empty keyword. -/
theorem scan_empty_keyword_returns_all (g : ImportGraph) (hwf : WellFormed g) :
    ∀ d ∈ g.details,
      (d.importer, d.imported, d.line_number) ∈ get_inline_ignored_lines g "" := by
  intro d hd
  exact (mem_get_inline_ignored_lines hwf).mpr
    ⟨d, hd, rfl, rfl, rfl, strContains_empty_keyword _⟩

theorem scan_empty_keyword_returns_all_witness :
    ("a", "b", 5) ∈ get_inline_ignored_lines noTextGraph "" :=
  scan_empty_keyword_returns_all noTextGraph (by decide) ⟨"a", "b", 5, none⟩ (by decide)

/-- C8: the scan `get_inline_ignored_lines`, run in state-passing form where
every graph call threads the graph through, performs no mutation — the graph
it leaves behind is the input graph — and repeated calls on the unmutated
graph return the same set of triples (the pure scan's result). -/
theorem scan_read_only_and_idempotent (g : ImportGraph) (kw : String) :
    (get_inline_ignored_linesSt g kw).2 = g ∧
    (get_inline_ignored_linesSt g kw).1 = get_inline_ignored_lines g kw ∧
    (get_inline_ignored_linesSt (get_inline_ignored_linesSt g kw).2 kw).1
      = (get_inline_ignored_linesSt g kw).1 := by
  refine ⟨?_, ?_, ?_⟩ <;> simp [get_inline_ignored_linesSt_eq]

/-- C4: `filter_ignored_lines` returns a subsequence of its input preserving
the relative order of the remaining entries, excluding exactly the entries
whose (importer, imported, line_number) triple is in the ignored set, and is
the identity when the ignored set is empty. -/
theorem filter_ignored_lines_spec (l : List OccurrenceDetail)
    (s : List (String × String × Nat)) :
    List.Sublist (filter_ignored_lines l s) l ∧
    (∀ d, d ∈ filter_ignored_lines l s ↔
        d ∈ l ∧ (d.importer, d.imported, d.line_number) ∉ s) ∧
    filter_ignored_lines l [] = l := by
  refine ⟨List.filter_sublist l, ?_, ?_⟩
  · intro d
    simp [filter_ignored_lines, List.mem_filter]
  · simp [filter_ignored_lines]

/-- C5: with alert level NONE, `remove_ignored_imports` never raises and
always returns an empty warning list, regardless of how many expressions
matched zero edges; the matched edges are still removed — an edge survives
exactly when no expression in the list matches it. -/
theorem resolve_none_level_silent (m : String → String × String → Bool)
    (g : ImportGraph) (E : List String) :
    (runResolve m g (some E) AlertLevel.NONE).1 = Except.ok [] ∧
    ∀ e, e ∈ ((runResolve m g (some E) AlertLevel.NONE).2).edges ↔
      e ∈ g.edges ∧ ¬ ∃ x ∈ E, m x e = true := by
  have hrem : remove_ignored_imports m g (some E) AlertLevel.NONE
      = Except.ok ([], applyRemovals g (resolveSets m g E).1) := by
    simp only [remove_ignored_imports, Option.getD_some, handle_none_level]
  constructor
  · simp only [runResolve, hrem]
  · intro e
    simp only [runResolve, hrem]
    rw [mem_applyRemovals_edges]
    constructor
    · rintro ⟨h1, h2⟩
      refine ⟨h1, ?_⟩
      rintro ⟨x, hx, hmx⟩
      exact h2 (mem_resolveSets_fst.mpr ⟨x, hx, mem_find_matching.mpr ⟨h1, hmx⟩⟩)
    · rintro ⟨h1, h2⟩
      refine ⟨h1, fun hmem => ?_⟩
      obtain ⟨x, hx, he⟩ := mem_resolveSets_fst.mp hmem
      exact h2 ⟨x, hx, (mem_find_matching.mp he).2⟩

/-- C9: `remove_ignored_imports` accepts `none` for its ignore-imports
argument and treats it exactly like the empty expression list: for every graph
and alert level it returns an empty warning list, never raises, and leaves the
graph unchanged. -/
theorem resolve_none_argument (m : String → String × String → Bool)
    (g : ImportGraph) (lvl : AlertLevel) :
    runResolve m g none lvl = (Except.ok [], g) ∧
    runResolve m g none lvl = runResolve m g (some []) lvl := by
  have key : ∀ o : Option (List String), o.getD [] = [] →
      remove_ignored_imports m g o lvl = Except.ok ([], g) := by
    intro o ho
    simp only [remove_ignored_imports, ho]
    rw [show resolveSets m g [] = ([], []) from rfl, handle_nil]
    rfl
  have h1 := key none rfl
  have h2 := key (some []) rfl
  constructor
  · simp only [runResolve, h1]
  · simp only [runResolve, h1, h2]

/-- C1: with alert level ERROR and at least one expression matching zero
edges, `remove_ignored_imports` raises the single missing-import error kind,
whose message names the lexicographically smallest unmatched expression (by
string form, not the first encountered), and the graph's edge state after the
failed call equals its state before the call — no removal happens on this
path. -/
theorem resolve_error_min_unmatched (m : String → String × String → Bool)
    (g : ImportGraph) (E : List String)
    (h : ∃ x ∈ E, find_matching_direct_imports m g x = []) :
    (∃ w, (runResolve m g (some E) AlertLevel.ERROR).1
        = Except.error (build_missing_import_message w) ∧
      w ∈ E ∧ find_matching_direct_imports m g w = [] ∧
      ∀ x ∈ E, find_matching_direct_imports m g x = [] → strLeB w x = true) ∧
    (runResolve m g (some E) AlertLevel.ERROR).2 = g := by
  obtain ⟨x0, hx0, hm0⟩ := h
  have hUne : (resolveSets m g E).2 ≠ [] := by
    intro he
    have hmem : x0 ∈ (resolveSets m g E).2 := mem_resolveSets_snd.mpr ⟨hx0, hm0⟩
    rw [he] at hmem
    exact absurd hmem (List.not_mem_nil x0)
  have hrem : remove_ignored_imports m g (some E) AlertLevel.ERROR
      = Except.error (build_missing_import_message
          ((sortStrings ((resolveSets m g E).2)).headD "")) := by
    simp only [remove_ignored_imports, Option.getD_some]
    rw [handle_error hUne]
  have hwmem : (sortStrings ((resolveSets m g E).2)).headD "" ∈ (resolveSets m g E).2 :=
    sortStrings_headD_mem hUne
  have hwE := mem_resolveSets_snd.mp hwmem
  constructor
  · refine ⟨(sortStrings ((resolveSets m g E).2)).headD "", ?_, hwE.1, hwE.2, ?_⟩
    · simp only [runResolve, hrem]
    · intro x hx hmx
      exact sortStrings_head_le _ x (mem_resolveSets_snd.mpr ⟨hx, hmx⟩)
  · simp only [runResolve, hrem]

theorem resolve_error_min_unmatched_witness :
    (∃ w, (runResolve exactMatch exampleGraph (some ["x -> y", "a -> b"])
          AlertLevel.ERROR).1
        = Except.error (build_missing_import_message w) ∧
      w ∈ ["x -> y", "a -> b"] ∧
      find_matching_direct_imports exactMatch exampleGraph w = [] ∧
      ∀ x ∈ ["x -> y", "a -> b"],
        find_matching_direct_imports exactMatch exampleGraph x = [] →
          strLeB w x = true) ∧
    (runResolve exactMatch exampleGraph (some ["x -> y", "a -> b"])
        AlertLevel.ERROR).2 = exampleGraph :=
  resolve_error_min_unmatched exactMatch exampleGraph ["x -> y", "a -> b"] (by decide)

/-- C2 counterexample: with alert level WARN on a graph with no edges, the
expressions "b -> c" and "a -> b" both match nothing, and the returned warning
list keeps the set's iteration order ("b -> c" first) — sorting the two
messages lexicographically would put "a -> b" first, and the two messages
differ, so the returned list is not sorted lexicographically as the claim
states. -/
theorem warn_warnings_not_sorted :
    (runResolve exactMatch bareGraph (some ["b -> c", "a -> b"]) AlertLevel.WARN).1
      = Except.ok ["No matches for ignored import b -> c.",
          "No matches for ignored import a -> b."] ∧
    sortStrings ["No matches for ignored import b -> c.",
        "No matches for ignored import a -> b."]
      = ["No matches for ignored import a -> b.",
          "No matches for ignored import b -> c."] ∧
    ("No matches for ignored import a -> b." : String)
      ≠ "No matches for ignored import b -> c." :=
  ⟨rfl, by decide, by decide⟩

/-- C2 amended: with alert level WARN and at least one expression matching
zero edges, `remove_ignored_imports` returns exactly one warning per distinct
unmatched expression, each reading "No matches for ignored import {expr}.",
in the unresolved set's iteration order (first-encounter order in this model;
the code applies no sort on this path), not sorted lexicographically. -/
theorem warn_one_warning_per_unmatched (m : String → String × String → Bool)
    (g : ImportGraph) (E : List String)
    (h : ∃ x ∈ E, find_matching_direct_imports m g x = []) :
    (runResolve m g (some E) AlertLevel.WARN).1
      = Except.ok (((resolveSets m g E).2).map build_missing_import_message) ∧
    ((resolveSets m g E).2).Nodup ∧
    (∀ x, x ∈ (resolveSets m g E).2 ↔
        x ∈ E ∧ find_matching_direct_imports m g x = []) := by
  obtain ⟨x0, hx0, hm0⟩ := h
  have hUne : (resolveSets m g E).2 ≠ [] := by
    intro he
    have hmem : x0 ∈ (resolveSets m g E).2 := mem_resolveSets_snd.mpr ⟨hx0, hm0⟩
    rw [he] at hmem
    exact absurd hmem (List.not_mem_nil x0)
  have hrem : remove_ignored_imports m g (some E) AlertLevel.WARN
      = Except.ok (((resolveSets m g E).2).map build_missing_import_message,
          applyRemovals g (resolveSets m g E).1) := by
    simp only [remove_ignored_imports, Option.getD_some]
    rw [handle_warn hUne]
  exact ⟨by simp only [runResolve, hrem], nodup_resolveSets_snd,
    fun x => mem_resolveSets_snd⟩

theorem warn_one_warning_per_unmatched_witness :
    (runResolve exactMatch bareGraph (some ["b -> c", "a -> b"]) AlertLevel.WARN).1
      = Except.ok (((resolveSets exactMatch bareGraph ["b -> c", "a -> b"]).2).map
          build_missing_import_message) :=
  (warn_one_warning_per_unmatched exactMatch bareGraph ["b -> c", "a -> b"]
    (by decide)).1

/-- C6: in a non-failing `remove_ignored_imports` call, the removal set is
deduplicated by value equality of the (importer, imported) pair: the removal
loop's call list contains a matched concrete edge exactly once — even when two
or more different expressions match it — and an unmatched pair not at all. -/
theorem remove_invoked_once (m : String → String × String → Bool) (g : ImportGraph)
    (ign : Option (List String)) (lvl : AlertLevel) (e : String × String)
    (hok : ∃ w, (runResolve m g ign lvl).1 = Except.ok w) :
    countOcc e ((resolveSets m g (ign.getD [])).1)
      = if e ∈ g.edges ∧ ∃ x ∈ ign.getD [], m x e = true then 1 else 0 := by
  by_cases hc : e ∈ g.edges ∧ ∃ x ∈ ign.getD [], m x e = true
  · rw [if_pos hc]
    obtain ⟨h1, x, hx, hmx⟩ := hc
    exact countOcc_eq_one nodup_resolveSets_fst
      (mem_resolveSets_fst.mpr ⟨x, hx, mem_find_matching.mpr ⟨h1, hmx⟩⟩)
  · rw [if_neg hc]
    apply countOcc_eq_zero
    intro hmem
    obtain ⟨x, hx, he⟩ := mem_resolveSets_fst.mp hmem
    obtain ⟨heg, hme⟩ := mem_find_matching.mp he
    exact hc ⟨heg, x, hx, hme⟩

theorem remove_invoked_once_witness :
    countOcc ("a", "b") ((resolveSets matchAllOracle exampleGraph ["p", "q"]).1) = 1 :=
  (remove_invoked_once matchAllOracle exampleGraph (some ["p", "q"]) AlertLevel.NONE
    ("a", "b") ⟨[], rfl⟩).trans (by decide)

/-- C7: when every expression in the list matches at least one concrete edge
of the initial graph, running `remove_ignored_imports` a second time with the
same expression list leaves the edge set exactly as the first run left it —
edges removed by the first run are simply absent from the second run's
matches, whatever the alert level. -/
theorem resolve_idempotent (m : String → String × String → Bool) (g : ImportGraph)
    (E : List String) (lvl : AlertLevel)
    (h : ∀ x ∈ E, find_matching_direct_imports m g x ≠ []) :
    ((runResolve m (runResolve m g (some E) lvl).2 (some E) lvl).2).edges
      = ((runResolve m g (some E) lvl).2).edges := by
  have hU1 : (resolveSets m g E).2 = [] := by
    apply List.eq_nil_iff_forall_not_mem.mpr
    intro x hx
    obtain ⟨hxE, hxm⟩ := mem_resolveSets_snd.mp hx
    exact h x hxE hxm
  have hrem1 : remove_ignored_imports m g (some E) lvl
      = Except.ok ([], applyRemovals g (resolveSets m g E).1) := by
    simp only [remove_ignored_imports, Option.getD_some]
    rw [hU1, handle_nil]
  have hrun1 : runResolve m g (some E) lvl
      = (Except.ok [], applyRemovals g (resolveSets m g E).1) := by
    simp only [runResolve, hrem1]
  rw [hrun1]
  have hg1edges : ∀ e, e ∈ (applyRemovals g (resolveSets m g E).1).edges ↔
      e ∈ g.edges ∧ ¬ ∃ x ∈ E, m x e = true := by
    intro e
    rw [mem_applyRemovals_edges]
    constructor
    · rintro ⟨h1, h2⟩
      refine ⟨h1, ?_⟩
      rintro ⟨x, hx, hmx⟩
      exact h2 (mem_resolveSets_fst.mpr ⟨x, hx, mem_find_matching.mpr ⟨h1, hmx⟩⟩)
    · rintro ⟨h1, h2⟩
      refine ⟨h1, fun hmem => ?_⟩
      obtain ⟨x, hx, he⟩ := mem_resolveSets_fst.mp hmem
      exact h2 ⟨x, hx, (mem_find_matching.mp he).2⟩
  have hto2 : (resolveSets m (applyRemovals g (resolveSets m g E).1) E).1 = [] := by
    apply List.eq_nil_iff_forall_not_mem.mpr
    intro e he
    obtain ⟨x, hx, hmem⟩ := mem_resolveSets_fst.mp he
    obtain ⟨heg1, hme⟩ := mem_find_matching.mp hmem
    obtain ⟨_, hno⟩ := (hg1edges e).mp heg1
    exact hno ⟨x, hx, hme⟩
  cases hh : handle_unresolved_import_expressions
      (resolveSets m (applyRemovals g (resolveSets m g E).1) E).2 lvl with
  | error msg =>
      have hrem2 : remove_ignored_imports m (applyRemovals g (resolveSets m g E).1)
          (some E) lvl = Except.error msg := by
        simp only [remove_ignored_imports, Option.getD_some]
        rw [hh]
      simp only [runResolve, hrem2]
  | ok w =>
      have hrem2 : remove_ignored_imports m (applyRemovals g (resolveSets m g E).1)
          (some E) lvl
          = Except.ok (w, applyRemovals (applyRemovals g (resolveSets m g E).1)
              (resolveSets m (applyRemovals g (resolveSets m g E).1) E).1) := by
        simp only [remove_ignored_imports, Option.getD_some]
        rw [hh]
      simp only [runResolve, hrem2, hto2]
      rfl

theorem resolve_idempotent_witness :
    ((runResolve exactMatch
        (runResolve exactMatch exampleGraph (some ["a -> b"]) AlertLevel.ERROR).2
        (some ["a -> b"]) AlertLevel.ERROR).2).edges
      = ((runResolve exactMatch exampleGraph (some ["a -> b"]) AlertLevel.ERROR).2).edges :=
  resolve_idempotent exactMatch exampleGraph ["a -> b"] AlertLevel.ERROR (by decide)
